import Mathlib

/-!
Shallow embedding of the grid-generation, path-planning, jump-analysis and
scan-simulation core of `GUItest.py` (class `ShapeGridGUI`), together with
proofs of the specification claims about it.

Modelling conventions:
* an index point is a pair of integers;
* Python float arithmetic is idealised as exact rational / real arithmetic;
* the external geometry-library calls of `generate_grid`
  (`poly.contains(p) or poly.buffer(1).contains(p)`) are abstracted as a
  boolean predicate parameter `inPoly`;
* the threshold text field is modelled by the result of its numeric parse,
  an `Option` value where `none` stands for unparsable text
  (the `try: float(...) except ValueError` pattern);
* the two `time.sleep` calls of `simulate_scan` are modelled as symbolic
  long/short delay markers in an event trace.
-/

namespace TwoPhoton

/-- An index point `(ix, iy)`. -/
abbrev Pt : Type := ℤ × ℤ

/-- ROI grid extent, `self.roi_size = 200`. -/
def roiSize : ℤ := 200

/-- ROI grid extent as a natural number, for accumulator indexing. -/
def roiSizeN : ℕ := 200

/-- Physical step per index unit, `self.galvo_step_um = 0.2`. -/
def galvoStepQ : ℚ := 1/5

/-- Minimum of a list of integers, seeded with the head
(the x/y minimum that `poly.bounds` reports for an integer-vertex polygon). -/
def listMin : List ℤ → ℤ
  | [] => 0
  | x :: xs => xs.foldl min x

/-- Maximum of a list of integers, seeded with the head. -/
def listMax : List ℤ → ℤ
  | [] => 0
  | x :: xs => xs.foldl max x

/-- Code line `minx = max(minx, 0)` of `generate_grid`. -/
def minxOf (vs : List Pt) : ℤ := max (listMin (vs.map Prod.fst)) 0

/-- Code line `miny = max(miny, 0)` of `generate_grid`. -/
def minyOf (vs : List Pt) : ℤ := max (listMin (vs.map Prod.snd)) 0

/-- Code line `maxx = min(maxx, self.roi_size - 1)` of `generate_grid`. -/
def maxxOf (vs : List Pt) : ℤ := min (listMax (vs.map Prod.fst)) (roiSize - 1)

/-- Code line `maxy = min(maxy, self.roi_size - 1)` of `generate_grid`. -/
def maxyOf (vs : List Pt) : ℤ := min (listMax (vs.map Prod.snd)) (roiSize - 1)

/-- The integer interval `[lo, hi]` as an ascending list,
Python `range(lo, hi + 1)`. -/
def intRange (lo hi : ℤ) : List ℤ :=
  (List.range (hi + 1 - lo).toNat).map (fun k : ℕ => lo + (k : ℤ))

/-- The candidate-gathering double loop of `generate_grid`: for `iy` then `ix`
over the clamped bounding box, append `(ix, iy)` whenever the containment
test `poly.contains(p) or poly.buffer(1).contains(p)` (abstracted as
`inPoly`) succeeds. -/
def candidatesOf (inPoly : Pt → Bool) (vs : List Pt) : List Pt :=
  (intRange (minyOf vs) (maxyOf vs)).foldl
    (fun acc iy =>
      (intRange (minxOf vs) (maxxOf vs)).foldl
        (fun acc2 ix => if inPoly (ix, iy) then acc2 ++ [(ix, iy)] else acc2) acc)
    []

/-- Squared Euclidean index distance; the code squares `dx = abs(...)` and
`dy = abs(...)`, which equals squaring the signed differences. -/
def distSq (a b : Pt) : ℤ := (b.1 - a.1) ^ 2 + (b.2 - a.2) ^ 2

/-- The axis-aligned-neighbor test of `axis_neighbors`:
`(abs(px-cx) == 1 and py == cy) or (abs(py-cy) == 1 and px == cx)`. -/
def isAxisNbr (c q : Pt) : Bool :=
  decide ((|q.1 - c.1| = 1 ∧ q.2 = c.2) ∨ (|q.2 - c.2| = 1 ∧ q.1 = c.1))

/-- Helper `axis_neighbors(curr, pool)`: the members of `pool` passing the
axis-neighbor test, in pool order (the loop appends matches in order). -/
def axisNeighbors (c : Pt) (pool : List Pt) : List Pt :=
  pool.filter (fun q => isAxisNbr c q)

/-- Python `min(candidates, key=...)` over `best :: l`: the running best is
replaced only on a strictly smaller key, so the first minimum wins. -/
def foldMin (c : Pt) : List Pt → Pt → Pt
  | [], best => best
  | q :: rest, best => foldMin c rest (if distSq c q < distSq c best then q else best)

/-- One selection step of the greedy planner: the first axis-aligned neighbor
(`axn[0]`) if any exists, otherwise the Euclidean-nearest remaining candidate
(Python `min` over the pool `p :: rest`). -/
def chooseNext (c p : Pt) (rest : List Pt) : Pt :=
  match axisNeighbors c (p :: rest) with
  | q :: _ => q
  | [] => foldMin c rest p

/-- Python `list.remove(x)`: drop the first occurrence of `x`. -/
def removeFirst (x : Pt) : List Pt → List Pt
  | [] => []
  | y :: ys => if y = x then ys else y :: removeFirst x ys

/-- The planner's `while candidates:` loop, fueled; each iteration appends the
chosen point and removes it from the pool (`candidates.remove(next_pt)`).
The fuel is always run with the pool length, which suffices since each step
removes one element. -/
def planLoopFuel : ℕ → Pt → List Pt → List Pt
  | 0, _, _ => []
  | _ + 1, _, [] => []
  | n + 1, cur, p :: rest =>
    let nxt := chooseNext cur p rest
    nxt :: planLoopFuel n nxt (removeFirst nxt (p :: rest))

/-- The planner loop at its natural fuel. -/
def planLoop (cur : Pt) (pool : List Pt) : List Pt :=
  planLoopFuel pool.length cur pool

/-- Path ordering of `generate_grid`: start at `candidates.pop(0)` and run the
greedy loop over the rest; an empty candidate list yields an empty path. -/
def generateGridPath (cands : List Pt) : List Pt :=
  match cands with
  | [] => []
  | c :: rest => c :: planLoop c rest

/-- One entry of `self.big_jumps`: `((x1,y1), (x2,y2), dist_idx, dist_um)`.
The two float distances are stored squared (`d2` and `dUm2`), which is
lossless since squaring is a bijection on nonnegative reals. -/
structure Jump where
  a : Pt
  b : Pt
  d2 : ℤ
  dUm2 : ℚ
deriving DecidableEq

/-- The strict comparison `dist_idx > jump_thresh_idx` where
`dist_idx = sqrt d2`: over exact arithmetic, `sqrt d2 > t` iff `t < 0` or
`t ^ 2 < d2`. -/
def jumpCond (d2 : ℤ) (t : ℚ) : Bool :=
  decide (t < 0) || decide (t ^ 2 < (d2 : ℚ))

/-- The record appended for a detected jump, with
`dist_um = dist_idx * self.galvo_step_um` stored squared. -/
def jumpRecOf (a b : Pt) : Jump :=
  ⟨a, b, distSq a b, (distSq a b : ℚ) * galvoStepQ ^ 2⟩

/-- The `for (a, b) in zip(path, path[1:])` jump-detection loop, appending a
record for each consecutive pair whose distance exceeds the threshold. -/
def analyzeLoop (tIdx : ℚ) : List (Pt × Pt) → List Jump
  | [] => []
  | ab :: rest =>
    if jumpCond (distSq ab.1 ab.2) tIdx then jumpRecOf ab.1 ab.2 :: analyzeLoop tIdx rest
    else analyzeLoop tIdx rest

/-- Jump analysis of a path at an index-unit threshold. -/
def analyzeJumps (path : List Pt) (tIdx : ℚ) : List Jump :=
  analyzeLoop tIdx (path.zip path.tail)

/-- The `try: float(entry.get()) except ValueError: 0.4` pattern: an
unparsable entry (`none`) falls back to the default 0.4 micrometers. -/
def parseThreshold (tin : Option ℚ) : ℚ := tin.getD (2/5)

/-- Code line `jump_thresh_idx = jump_thresh_um / self.galvo_step_um`. -/
def jumpThreshIdx (tum : ℚ) : ℚ := tum / galvoStepQ

/-- Jump analysis as `generate_grid` invokes it: parse (with fallback),
convert to index units, scan the path. -/
def generateJumps (tin : Option ℚ) (path : List Pt) : List Jump :=
  analyzeJumps path (jumpThreshIdx (parseThreshold tin))

/-- The two delay kinds of `simulate_scan`: `time.sleep(0.05)` for a big jump
and `time.sleep(0.01)` for a normal dwell. -/
inductive Delay where
  | long
  | short
deriving DecidableEq

/-- The event trace of `simulate_scan`'s `run` loop: one entry per path point
in order, carrying the delay taken before that point's write (`none` for the
first point, where `prev is None` skips the delay). -/
def simTrace (tIdx : ℚ) : Option Pt → List Pt → List (Option Delay × Pt)
  | _, [] => []
  | none, p :: rest => (none, p) :: simTrace tIdx (some p) rest
  | some prev, p :: rest =>
    (some (if jumpCond (distSq prev p) tIdx then Delay.long else Delay.short), p) ::
      simTrace tIdx (some p) rest

/-- Method `simulate_scan`: bail out on an empty path (`if not self.grid_points`),
otherwise parse the threshold (with fallback) and run the scan loop. -/
def simulateScan (tin : Option ℚ) (path : List Pt) : List (Option Delay × Pt) :=
  if path.isEmpty then [] else simTrace (jumpThreshIdx (parseThreshold tin)) none path

/-- The heatmap accumulator `self.heatmap_data`, a list of rows; a cell is
`none` when unset (NaN) and `some v` once written. -/
abbrev Heatmap : Type := List (List (Option ℤ))

/-- Method `update_heatmap`: `self.heatmap_data[iy, ix] = value` (row `iy`,
column `ix`). -/
def updateHeatmap (g : Heatmap) (ix iy : ℕ) (v : ℤ) : Heatmap :=
  g.set iy ((g.getD iy []).set ix (some v))

/-- Read accumulator cell at row `r`, column `c`. -/
def readCell (g : Heatmap) (r c : ℕ) : Option ℤ :=
  (g.getD r []).getD c none

/-- Initial accumulator `np.full((roi_size, roi_size), np.nan)`. -/
def initHeatmap : Heatmap :=
  List.replicate roiSizeN (List.replicate roiSizeN none)

/-- The GUI state fields the pipeline claims depend on. -/
structure AppState where
  vertices : List Pt
  polygonDrawn : Bool
  gridPoints : List Pt
  bigJumps : List Jump
deriving DecidableEq

/-- Fresh state: no vertices, polygon not closed, no path, no jumps. -/
def initState : AppState := ⟨[], false, [], []⟩

/-- Method `inside_roi`: `0 <= ix < roi_size and 0 <= iy < roi_size`. -/
def inRoi (p : Pt) : Bool :=
  decide (0 ≤ p.1 ∧ p.1 < roiSize ∧ 0 ≤ p.2 ∧ p.2 < roiSize)

/-- Method `add_vertex` in freehand mode: ignored once the polygon is closed or when
the click is outside the ROI, otherwise appended. -/
def addVertex (s : AppState) (p : Pt) : AppState :=
  if s.polygonDrawn then s
  else if inRoi p then { s with vertices := s.vertices ++ [p] } else s

/-- Method `close_polygon`: marks the polygon closed only with more than two
vertices (freehand mode). -/
def closePolygon (s : AppState) : AppState :=
  if 2 < s.vertices.length then { s with polygonDrawn := true } else s

/-- Method `generate_grid`: no-op unless the polygon is closed; otherwise clear the
old outputs, rasterize, and if any candidates exist run the planner and the
jump analysis. Also returns the candidate list produced (empty when
rasterization was not reached or found nothing). -/
def generateGrid (inPoly : Pt → Bool) (tin : Option ℚ) (s : AppState) :
    AppState × List Pt :=
  if !s.polygonDrawn then (s, [])
  else
    match candidatesOf inPoly s.vertices with
    | [] => ({ s with gridPoints := [], bigJumps := [] }, [])
    | c :: rest =>
      let path := c :: planLoop c rest
      ({ s with gridPoints := path, bigJumps := generateJumps tin path }, c :: rest)

/-- The full generate pipeline as a pure function of the vertex list, the
abstracted containment test, and the parsed threshold entry. -/
def fullPipeline (inPoly : Pt → Bool) (vs : List Pt) (tin : Option ℚ) :
    List Pt × List Jump :=
  let path := generateGridPath (candidatesOf inPoly vs)
  (path, generateJumps tin path)

/-- Modelled from the spec: the rasterizer output written directly as a
row-major traversal (outer `iy` ascending, inner `ix` ascending) keeping the
points that pass the containment test. Compared against `candidatesOf`. -/
def rowMajorCandidates (inPoly : Pt → Bool) (vs : List Pt) : List Pt :=
  (intRange (minyOf vs) (maxyOf vs)).flatMap fun iy =>
    (intRange (minxOf vs) (maxxOf vs)).filterMap fun ix =>
      if inPoly (ix, iy) then some (ix, iy) else none

/-- Property that `nxt` is the Euclidean-nearest point of `pool` to `c`, and the first such
point in `pool`'s order (every earlier point is strictly farther). -/
def FirstMin (c : Pt) (pool : List Pt) (nxt : Pt) : Prop :=
  (∃ l1 l2, pool = l1 ++ nxt :: l2 ∧ ∀ q ∈ l1, distSq c nxt < distSq c q) ∧
  ∀ q ∈ pool, distSq c nxt ≤ distSq c q

/-- The claimed per-step selection rule: if the pool holds an axis-aligned
neighbor of the current point, the first one in pool order is selected
(at squared distance 1); otherwise the first Euclidean-nearest point is. -/
def ChooseSpec (c : Pt) (pool : List Pt) (nxt : Pt) : Prop :=
  match pool.find? (fun q => isAxisNbr c q) with
  | some q => nxt = q ∧ distSq c nxt = 1
  | none => FirstMin c pool nxt

/-- A concrete square region used as a witness input. -/
def squareVerts : List Pt := [(0, 0), (2, 0), (2, 2), (0, 2)]

/-- A concrete stand-in for the containment test of `squareVerts` (the closed
square), used as a witness input for the abstracted `inPoly` parameter. -/
def squareTest : Pt → Bool :=
  fun q => decide (0 ≤ q.1 ∧ q.1 ≤ 2 ∧ 0 ≤ q.2 ∧ q.2 ≤ 2)

/-- A two-vertex (degenerate) region used as a witness input. -/
def twoVerts : List Pt := [(0, 0), (1, 1)]

/-- A trivial containment test used as a witness input. -/
def alwaysIn : Pt → Bool := fun _ => true

/-! ### Planner helper lemmas -/

theorem foldMin_mem (c : Pt) (l : List Pt) : ∀ best : Pt, foldMin c l best ∈ best :: l := by
  induction l with
  | nil => intro best; simp [foldMin]
  | cons q rest ih =>
    intro best
    have hstep : foldMin c (q :: rest) best
        = foldMin c rest (if distSq c q < distSq c best then q else best) := rfl
    rw [hstep]
    rcases List.mem_cons.mp (ih (if distSq c q < distSq c best then q else best)) with h | h
    · rw [h]
      split
      · exact List.mem_cons_of_mem _ (List.mem_cons_self _ _)
      · exact List.mem_cons_self _ _
    · exact List.mem_cons_of_mem _ (List.mem_cons_of_mem _ h)

theorem foldMin_le (c : Pt) (l : List Pt) :
    ∀ best q : Pt, q ∈ best :: l → distSq c (foldMin c l best) ≤ distSq c q := by
  induction l with
  | nil =>
    intro best q hq
    have : q = best := by simpa using hq
    subst this
    simp [foldMin]
  | cons a rest ih =>
    intro best q hq
    have hstep : foldMin c (a :: rest) best
        = foldMin c rest (if distSq c a < distSq c best then a else best) := rfl
    rw [hstep]
    by_cases hlt : distSq c a < distSq c best
    · rw [if_pos hlt]
      rcases List.mem_cons.mp hq with rfl | hq'
      · exact le_trans (ih a a (List.mem_cons_self _ _)) (le_of_lt hlt)
      rcases List.mem_cons.mp hq' with rfl | hq''
      · exact ih q q (List.mem_cons_self _ _)
      · exact ih a q (List.mem_cons_of_mem _ hq'')
    · rw [if_neg hlt]
      rcases List.mem_cons.mp hq with rfl | hq'
      · exact ih q q (List.mem_cons_self _ _)
      rcases List.mem_cons.mp hq' with rfl | hq''
      · exact le_trans (ih best best (List.mem_cons_self _ _)) (not_lt.mp hlt)
      · exact ih best q (List.mem_cons_of_mem _ hq'')

theorem foldMin_first (c : Pt) (l : List Pt) :
    ∀ best : Pt, ∃ l1 l2, best :: l = l1 ++ foldMin c l best :: l2 ∧
      ∀ q ∈ l1, distSq c (foldMin c l best) < distSq c q := by
  induction l with
  | nil => intro best; exact ⟨[], [], rfl, by simp⟩
  | cons a rest ih =>
    intro best
    have hstep : foldMin c (a :: rest) best
        = foldMin c rest (if distSq c a < distSq c best then a else best) := rfl
    by_cases hlt : distSq c a < distSq c best
    · rw [hstep, if_pos hlt]
      obtain ⟨l1, l2, heq, hstrict⟩ := ih a
      refine ⟨best :: l1, l2, ?_, ?_⟩
      · rw [List.cons_append, ← heq]
      · intro q hq
        rcases List.mem_cons.mp hq with rfl | hq'
        · exact lt_of_le_of_lt (foldMin_le c rest a a (List.mem_cons_self _ _)) hlt
        · exact hstrict q hq'
    · rw [hstep, if_neg hlt]
      have hba : distSq c best ≤ distSq c a := not_lt.mp hlt
      obtain ⟨l1, l2, heq, hstrict⟩ := ih best
      cases l1 with
      | nil =>
        simp only [List.nil_append] at heq
        have h1 : best = foldMin c rest best := (List.cons.injEq _ _ _ _).mp heq |>.1
        refine ⟨[], a :: rest, ?_, by simp⟩
        rw [List.nil_append, ← h1]
      | cons b l1t =>
        rw [List.cons_append] at heq
        have hb : best = b := (List.cons.injEq _ _ _ _).mp heq |>.1
        have hrest : rest = l1t ++ foldMin c rest best :: l2 :=
          (List.cons.injEq _ _ _ _).mp heq |>.2
        subst hb
        have hstrictbest : distSq c (foldMin c rest best) < distSq c best :=
          hstrict best (List.mem_cons_self _ _)
        refine ⟨best :: a :: l1t, l2, ?_, ?_⟩
        · rw [List.cons_append, List.cons_append, ← hrest]
        · intro q hq
          rcases List.mem_cons.mp hq with rfl | hq'
          · exact hstrictbest
          rcases List.mem_cons.mp hq' with rfl | hq''
          · exact lt_of_lt_of_le hstrictbest hba
          · exact hstrict q (List.mem_cons_of_mem _ hq'')

theorem head?_filter (p : Pt → Bool) (l : List Pt) : (l.filter p).head? = l.find? p := by
  induction l with
  | nil => rfl
  | cons a l ih =>
    cases h : p a
    · simp [List.filter_cons, List.find?_cons, h, ih]
    · simp [List.filter_cons, List.find?_cons, h]

theorem axisNeighbors_head? (c : Pt) (pool : List Pt) :
    (axisNeighbors c pool).head? = pool.find? (fun q => isAxisNbr c q) :=
  head?_filter _ _

theorem chooseNext_mem (c p : Pt) (rest : List Pt) : chooseNext c p rest ∈ p :: rest := by
  cases h : axisNeighbors c (p :: rest) with
  | nil =>
    have hc : chooseNext c p rest = foldMin c rest p := by
      unfold chooseNext; rw [h]
    rw [hc]
    exact foldMin_mem c rest p
  | cons q l =>
    have hc : chooseNext c p rest = q := by
      unfold chooseNext; rw [h]
    have hq : q ∈ axisNeighbors c (p :: rest) := by
      rw [h]; exact List.mem_cons_self _ _
    rw [hc]
    exact List.mem_of_mem_filter hq

theorem length_removeFirst_of_mem {x : Pt} :
    ∀ {l : List Pt}, x ∈ l → (removeFirst x l).length + 1 = l.length := by
  intro l
  induction l with
  | nil => intro h; simp at h
  | cons y ys ih =>
    intro h
    by_cases hyx : y = x
    · simp [removeFirst, hyx]
    · have hx : x ∈ ys := by
        rcases List.mem_cons.mp h with h1 | h1
        · exact absurd h1.symm hyx
        · exact h1
      have hys := ih hx
      simp only [removeFirst, if_neg hyx, List.length_cons]
      omega

theorem perm_cons_removeFirst {x : Pt} :
    ∀ {l : List Pt}, x ∈ l → l.Perm (x :: removeFirst x l) := by
  intro l
  induction l with
  | nil => intro h; simp at h
  | cons y ys ih =>
    intro h
    by_cases hyx : y = x
    · subst hyx
      simp [removeFirst]
    · have hx : x ∈ ys := by
        rcases List.mem_cons.mp h with h1 | h1
        · exact absurd h1.symm hyx
        · exact h1
      have hrw : removeFirst x (y :: ys) = y :: removeFirst x ys := by
        simp [removeFirst, hyx]
      rw [hrw]
      exact ((ih hx).cons y).trans (List.Perm.swap x y _)

theorem planLoopFuel_eq_planLoop :
    ∀ (n : ℕ) (pool : List Pt) (cur : Pt), pool.length ≤ n →
      planLoopFuel n cur pool = planLoop cur pool := by
  intro n
  induction n with
  | zero =>
    intro pool cur h
    have hnil : pool = [] := List.length_eq_zero.mp (Nat.le_zero.mp h)
    subst hnil
    rfl
  | succ n ih =>
    intro pool cur h
    cases pool with
    | nil => rfl
    | cons p rest =>
      have hmem := chooseNext_mem cur p rest
      have hlen : (removeFirst (chooseNext cur p rest) (p :: rest)).length = rest.length := by
        have := length_removeFirst_of_mem hmem
        simp only [List.length_cons] at this
        omega
      have h1 : planLoopFuel (n + 1) cur (p :: rest)
          = chooseNext cur p rest ::
            planLoopFuel n (chooseNext cur p rest)
              (removeFirst (chooseNext cur p rest) (p :: rest)) := rfl
      have h2 : planLoop cur (p :: rest)
          = chooseNext cur p rest ::
            planLoopFuel rest.length (chooseNext cur p rest)
              (removeFirst (chooseNext cur p rest) (p :: rest)) := rfl
      rw [h1, h2]
      have hle : (removeFirst (chooseNext cur p rest) (p :: rest)).length ≤ n := by
        rw [hlen]
        simpa using Nat.le_of_succ_le_succ h
      rw [ih _ _ hle]
      have h3 : planLoop (chooseNext cur p rest) (removeFirst (chooseNext cur p rest) (p :: rest))
          = planLoopFuel (removeFirst (chooseNext cur p rest) (p :: rest)).length
              (chooseNext cur p rest) (removeFirst (chooseNext cur p rest) (p :: rest)) := rfl
      rw [h3, hlen]

theorem planLoop_cons (cur p : Pt) (rest : List Pt) :
    planLoop cur (p :: rest) = chooseNext cur p rest ::
      planLoop (chooseNext cur p rest) (removeFirst (chooseNext cur p rest) (p :: rest)) := by
  have hmem := chooseNext_mem cur p rest
  have hlen : (removeFirst (chooseNext cur p rest) (p :: rest)).length = rest.length := by
    have := length_removeFirst_of_mem hmem
    simp only [List.length_cons] at this
    omega
  have h2 : planLoop cur (p :: rest)
      = chooseNext cur p rest ::
        planLoopFuel rest.length (chooseNext cur p rest)
          (removeFirst (chooseNext cur p rest) (p :: rest)) := rfl
  rw [h2]
  rw [planLoopFuel_eq_planLoop rest.length _ _ (le_of_eq hlen)]

theorem planLoop_perm_aux :
    ∀ (n : ℕ) (pool : List Pt) (cur : Pt), pool.length ≤ n →
      (planLoop cur pool).Perm pool := by
  intro n
  induction n with
  | zero =>
    intro pool cur h
    have hnil : pool = [] := List.length_eq_zero.mp (Nat.le_zero.mp h)
    subst hnil
    simp [planLoop, planLoopFuel]
  | succ n ih =>
    intro pool cur h
    cases pool with
    | nil => simp [planLoop, planLoopFuel]
    | cons p rest =>
      have hmem := chooseNext_mem cur p rest
      have hlen : (removeFirst (chooseNext cur p rest) (p :: rest)).length = rest.length := by
        have := length_removeFirst_of_mem hmem
        simp only [List.length_cons] at this
        omega
      rw [planLoop_cons]
      have ihp := ih (removeFirst (chooseNext cur p rest) (p :: rest)) (chooseNext cur p rest)
        (by rw [hlen]; simpa using Nat.le_of_succ_le_succ h)
      exact (ihp.cons _).trans (perm_cons_removeFirst hmem).symm

theorem planLoop_perm (pool : List Pt) (cur : Pt) : (planLoop cur pool).Perm pool :=
  planLoop_perm_aux pool.length pool cur le_rfl

theorem distSq_of_isAxisNbr {c q : Pt} (h : isAxisNbr c q = true) : distSq c q = 1 := by
  have h' := of_decide_eq_true h
  unfold distSq
  rcases h' with ⟨h1, h2⟩ | ⟨h1, h2⟩
  · rw [h2, sub_self, ← sq_abs (q.1 - c.1), h1]
    norm_num
  · rw [h2, sub_self, ← sq_abs (q.2 - c.2), h1]
    norm_num

theorem chooseNext_spec (c p : Pt) (rest : List Pt) :
    ChooseSpec c (p :: rest) (chooseNext c p rest) := by
  cases hf : (p :: rest).find? (fun q => isAxisNbr c q) with
  | some q =>
    have hh : (axisNeighbors c (p :: rest)).head? = some q := by
      rw [axisNeighbors_head?, hf]
    cases hax : axisNeighbors c (p :: rest) with
    | nil => rw [hax] at hh; simp at hh
    | cons q' l =>
      rw [hax] at hh
      simp only [List.head?_cons, Option.some.injEq] at hh
      subst hh
      have hc : chooseNext c p rest = q' := by
        unfold chooseNext; rw [hax]
      have hq : q' ∈ axisNeighbors c (p :: rest) := by
        rw [hax]; exact List.mem_cons_self _ _
      simp only [ChooseSpec, hf]
      exact ⟨hc, by rw [hc]; exact distSq_of_isAxisNbr (List.of_mem_filter hq)⟩
  | none =>
    have hh : (axisNeighbors c (p :: rest)).head? = none := by
      rw [axisNeighbors_head?, hf]
    have hax : axisNeighbors c (p :: rest) = [] := by
      cases h : axisNeighbors c (p :: rest)
      · rfl
      · rw [h] at hh; simp at hh
    have hc : chooseNext c p rest = foldMin c rest p := by
      unfold chooseNext; rw [hax]
    simp only [ChooseSpec, hf]
    rw [hc]
    exact ⟨foldMin_first c rest p, fun q hq => foldMin_le c rest p q hq⟩

/-! ### Rasterizer helper lemmas -/

theorem mem_intRange {x lo hi : ℤ} : x ∈ intRange lo hi ↔ lo ≤ x ∧ x ≤ hi := by
  simp only [intRange, List.mem_map, List.mem_range]
  constructor
  · rintro ⟨k, hk, rfl⟩
    omega
  · rintro ⟨h1, h2⟩
    exact ⟨(x - lo).toNat, by omega, by omega⟩

theorem pairwise_lt_intRange (lo hi : ℤ) : (intRange lo hi).Pairwise (· < ·) := by
  unfold intRange
  refine List.Pairwise.map _ ?_ (List.pairwise_lt_range _)
  intro a b hab
  omega

theorem foldl_inner_eq (inPoly : Pt → Bool) (iy : ℤ) (row : List ℤ) :
    ∀ acc : List Pt,
      row.foldl (fun acc2 ix => if inPoly (ix, iy) then acc2 ++ [(ix, iy)] else acc2) acc
        = acc ++ row.filterMap (fun ix => if inPoly (ix, iy) then some (ix, iy) else none) := by
  induction row with
  | nil => intro acc; simp
  | cons ix row ih =>
    intro acc
    cases h : inPoly (ix, iy)
    · simp [List.foldl_cons, h, ih, List.filterMap_cons]
    · simp [List.foldl_cons, h, ih, List.filterMap_cons]

theorem candidatesOf_eq_rowMajor (inPoly : Pt → Bool) (vs : List Pt) :
    candidatesOf inPoly vs = rowMajorCandidates inPoly vs := by
  unfold candidatesOf rowMajorCandidates
  generalize intRange (minxOf vs) (maxxOf vs) = row
  generalize intRange (minyOf vs) (maxyOf vs) = col
  suffices h : ∀ (col : List ℤ) (acc : List Pt),
      col.foldl (fun acc iy =>
        row.foldl (fun acc2 ix => if inPoly (ix, iy) then acc2 ++ [(ix, iy)] else acc2) acc) acc
      = acc ++ col.flatMap
          (fun iy => row.filterMap (fun ix => if inPoly (ix, iy) then some (ix, iy) else none)) by
    simpa using h col []
  intro col
  induction col with
  | nil => intro acc; simp
  | cons iy col ih =>
    intro acc
    simp only [List.foldl_cons, List.flatMap_cons]
    rw [foldl_inner_eq, ih, List.append_assoc]

theorem mem_rowMajor (inPoly : Pt → Bool) (vs : List Pt) (ix iy : ℤ) :
    (ix, iy) ∈ rowMajorCandidates inPoly vs ↔
      (minxOf vs ≤ ix ∧ ix ≤ maxxOf vs ∧ minyOf vs ≤ iy ∧ iy ≤ maxyOf vs ∧
        inPoly (ix, iy) = true) := by
  unfold rowMajorCandidates
  simp only [List.mem_flatMap, List.mem_filterMap]
  constructor
  · rintro ⟨iy', hy, ix', hx, hif⟩
    cases h : inPoly (ix', iy')
    · rw [if_neg (by simp [h])] at hif
      exact absurd hif (by simp)
    · rw [if_pos h] at hif
      have hpt : ix' = ix ∧ iy' = iy := by
        simpa [Prod.ext_iff] using hif
      obtain ⟨rfl, rfl⟩ := hpt
      exact ⟨(mem_intRange.mp hx).1, (mem_intRange.mp hx).2,
        (mem_intRange.mp hy).1, (mem_intRange.mp hy).2, h⟩
  · rintro ⟨h1, h2, h3, h4, h5⟩
    exact ⟨iy, mem_intRange.mpr ⟨h3, h4⟩, ix, mem_intRange.mpr ⟨h1, h2⟩, by rw [if_pos h5]⟩

/-! ### Jump-analysis helper lemmas -/

theorem analyzeLoop_eq_filterMap (tIdx : ℚ) (l : List (Pt × Pt)) :
    analyzeLoop tIdx l
      = (l.filter (fun ab => jumpCond (distSq ab.1 ab.2) tIdx)).map
          (fun ab => jumpRecOf ab.1 ab.2) := by
  induction l with
  | nil => rfl
  | cons ab l ih =>
    cases h : jumpCond (distSq ab.1 ab.2) tIdx
    · simp [analyzeLoop, List.filter_cons, h, ih]
    · simp [analyzeLoop, List.filter_cons, h, ih]

theorem distSq_nonneg (a b : Pt) : (0 : ℤ) ≤ distSq a b := by
  unfold distSq
  positivity

theorem jumpCond_iff_sqrt (a b : Pt) (t : ℚ) :
    jumpCond (distSq a b) t = true ↔ (t : ℝ) < Real.sqrt ((distSq a b : ℤ) : ℝ) := by
  unfold jumpCond
  simp only [Bool.or_eq_true, decide_eq_true_eq]
  rcases lt_or_le t 0 with ht | ht
  · have hR : (t : ℝ) < Real.sqrt (((distSq a b : ℤ) : ℝ)) :=
      lt_of_lt_of_le (by exact_mod_cast ht) (Real.sqrt_nonneg _)
    exact ⟨fun _ => hR, fun _ => Or.inl ht⟩
  · have htR : (0 : ℝ) ≤ (t : ℝ) := by exact_mod_cast ht
    rw [Real.lt_sqrt htR]
    constructor
    · rintro (h | h)
      · exact absurd h (not_lt.mpr ht)
      · exact_mod_cast h
    · intro h
      refine Or.inr ?_
      exact_mod_cast h

theorem jumpCond_antitone {d2 : ℤ} {t1 t2 : ℚ} (h : t1 ≤ t2)
    (hc : jumpCond d2 t2 = true) : jumpCond d2 t1 = true := by
  unfold jumpCond at hc ⊢
  simp only [Bool.or_eq_true, decide_eq_true_eq] at hc ⊢
  rcases lt_or_le t1 0 with h1 | h1
  · exact Or.inl h1
  · rcases hc with hc | hc
    · exact absurd hc (not_lt.mpr (le_trans h1 h))
    · refine Or.inr ?_
      have ht2 : (0 : ℚ) ≤ t2 := le_trans h1 h
      nlinarith

theorem jumpThreshIdx_mono {t1 t2 : ℚ} (h : t1 ≤ t2) : jumpThreshIdx t1 ≤ jumpThreshIdx t2 := by
  unfold jumpThreshIdx galvoStepQ
  have h5 : t1 / (1/5 : ℚ) = 5 * t1 := by ring
  have h6 : t2 / (1/5 : ℚ) = 5 * t2 := by ring
  rw [h5, h6]
  linarith

theorem analyzeJumps_length_antitone (path : List Pt) {ti1 ti2 : ℚ} (h : ti1 ≤ ti2) :
    (analyzeJumps path ti2).length ≤ (analyzeJumps path ti1).length := by
  unfold analyzeJumps
  rw [analyzeLoop_eq_filterMap, analyzeLoop_eq_filterMap, List.length_map, List.length_map,
    ← List.countP_eq_length_filter, ← List.countP_eq_length_filter]
  apply List.countP_mono_left
  intro ab _ hc
  exact jumpCond_antitone h hc

/-! ### Simulator helper lemmas -/

theorem simTrace_map_snd (tIdx : ℚ) (path : List Pt) :
    ∀ prev : Option Pt, (simTrace tIdx prev path).map Prod.snd = path := by
  induction path with
  | nil => intro prev; cases prev <;> rfl
  | cons p rest ih =>
    intro prev
    cases prev <;> simp [simTrace, ih]

/-! ### GUI-state helper lemmas -/

theorem addVertex_fields (s : AppState) (p : Pt) :
    (addVertex s p).polygonDrawn = s.polygonDrawn ∧
    (addVertex s p).gridPoints = s.gridPoints ∧
    (addVertex s p).bigJumps = s.bigJumps ∧
    (addVertex s p).vertices.length ≤ s.vertices.length + 1 := by
  unfold addVertex
  split
  · exact ⟨rfl, rfl, rfl, by omega⟩
  · split
    · refine ⟨rfl, rfl, rfl, ?_⟩
      simp
    · exact ⟨rfl, rfl, rfl, by omega⟩

theorem foldl_addVertex_fields (vs : List Pt) :
    ∀ s : AppState,
      (vs.foldl addVertex s).polygonDrawn = s.polygonDrawn ∧
      (vs.foldl addVertex s).gridPoints = s.gridPoints ∧
      (vs.foldl addVertex s).bigJumps = s.bigJumps ∧
      (vs.foldl addVertex s).vertices.length ≤ s.vertices.length + vs.length := by
  induction vs with
  | nil => intro s; exact ⟨rfl, rfl, rfl, by simp⟩
  | cons p vs ih =>
    intro s
    obtain ⟨h1, h2, h3, h4⟩ := addVertex_fields s p
    obtain ⟨g1, g2, g3, g4⟩ := ih (addVertex s p)
    simp only [List.foldl_cons]
    refine ⟨g1.trans h1, g2.trans h2, g3.trans h3, ?_⟩
    simp only [List.length_cons]
    omega

/-! ### Claim theorems -/

/-- Claim C1: for every region whose generate call produces a non-empty
candidate set, the resulting scan path is an exact permutation of the
candidate set — every candidate appears exactly once, nothing is duplicated,
nothing outside the candidate set appears. -/
theorem coverage_permutation (cands : List Pt) (h : cands ≠ []) :
    (generateGridPath cands).Perm cands := by
  cases cands with
  | nil => exact absurd rfl h
  | cons c rest =>
    show (c :: planLoop c rest).Perm (c :: rest)
    exact (planLoop_perm rest c).cons c

/-- Witness for C1 at a concrete candidate list. -/
theorem coverage_permutation_witness :
    (generateGridPath [((0 : ℤ), (0 : ℤ)), ((2 : ℤ), (0 : ℤ))]).Perm
      [((0 : ℤ), (0 : ℤ)), ((2 : ℤ), (0 : ℤ))] :=
  coverage_permutation _ (by decide)

/-- Claim C2: the candidate set is exactly the integer points of the clamped
bounding box that pass the containment test (strictly inside the polygon or
inside its 1-unit dilation, abstracted as `inPoly`). The hypothesis `hlow`
records the geometric fact about the abstracted test that an integer point
strictly inside the polygon or its open 1-unit dilation cannot lie left of or
above the polygon's clamped bounding box (for the integer-vertex in-ROI
polygons the GUI produces), which makes the claim's `0 ≤ ix`/`0 ≤ iy` box
coincide with the code's `int(minx) ≤ ix`/`int(miny) ≤ iy` enumeration. -/
theorem rasterizer_membership (inPoly : Pt → Bool) (vs : List Pt)
    (hlow : ∀ q : Pt, inPoly q = true → minxOf vs ≤ q.1 ∧ minyOf vs ≤ q.2) :
    ∀ ix iy : ℤ, ((ix, iy) ∈ candidatesOf inPoly vs ↔
      (0 ≤ ix ∧ ix ≤ maxxOf vs ∧ 0 ≤ iy ∧ iy ≤ maxyOf vs ∧ inPoly (ix, iy) = true)) := by
  intro ix iy
  rw [candidatesOf_eq_rowMajor, mem_rowMajor]
  constructor
  · rintro ⟨h1, h2, h3, h4, h5⟩
    refine ⟨le_trans ?_ h1, h2, le_trans ?_ h3, h4, h5⟩
    · unfold minxOf; exact le_max_right _ _
    · unfold minyOf; exact le_max_right _ _
  · rintro ⟨h1, h2, h3, h4, h5⟩
    obtain ⟨hx, hy⟩ := hlow (ix, iy) h5
    exact ⟨hx, h2, hy, h4, h5⟩

/-- Witness for C2 at the concrete square region. -/
theorem rasterizer_membership_witness :
    ((1, 1) ∈ candidatesOf squareTest squareVerts ↔
      (0 ≤ (1 : ℤ) ∧ (1 : ℤ) ≤ maxxOf squareVerts ∧ 0 ≤ (1 : ℤ) ∧
        (1 : ℤ) ≤ maxyOf squareVerts ∧ squareTest (1, 1) = true)) :=
  rasterizer_membership squareTest squareVerts
    (by
      intro q hq
      simp only [squareTest, decide_eq_true_eq] at hq
      have h1 : minxOf squareVerts = 0 := by decide
      have h2 : minyOf squareVerts = 0 := by decide
      rw [h1, h2]
      exact ⟨hq.1, hq.2.2.1⟩)
    1 1

/-- Claim C3: at each step of path planning, if a remaining candidate is an
axis-aligned neighbor of the current point, the first such neighbor in
enumeration order is selected (and it lies at Euclidean distance exactly 1);
otherwise the first Euclidean-nearest remaining candidate is selected.
Consequently every step of the loop moves to a point either at distance
exactly 1 or to a nearest remaining point; the first conjunct shows every
consecutive pair of the path arises from exactly such a step. -/
theorem planner_step_rule (cur p : Pt) (rest : List Pt) :
    planLoop cur (p :: rest) = chooseNext cur p rest ::
        planLoop (chooseNext cur p rest) (removeFirst (chooseNext cur p rest) (p :: rest)) ∧
    ChooseSpec cur (p :: rest) (chooseNext cur p rest) ∧
    (distSq cur (chooseNext cur p rest) = 1 ∨
      ∀ q ∈ p :: rest, distSq cur (chooseNext cur p rest) ≤ distSq cur q) := by
  refine ⟨planLoop_cons cur p rest, chooseNext_spec cur p rest, ?_⟩
  have hs := chooseNext_spec cur p rest
  unfold ChooseSpec at hs
  cases hf : (p :: rest).find? (fun q => isAxisNbr cur q) with
  | some q =>
    rw [hf] at hs
    exact Or.inl hs.2
  | none =>
    rw [hf] at hs
    exact Or.inr hs.2

/-- Witness for C3 at a concrete step state. -/
theorem planner_step_rule_witness :
    planLoop ((0 : ℤ), (0 : ℤ)) [((1 : ℤ), (0 : ℤ))]
        = chooseNext ((0 : ℤ), (0 : ℤ)) ((1 : ℤ), (0 : ℤ)) [] ::
          planLoop (chooseNext ((0 : ℤ), (0 : ℤ)) ((1 : ℤ), (0 : ℤ)) [])
            (removeFirst (chooseNext ((0 : ℤ), (0 : ℤ)) ((1 : ℤ), (0 : ℤ)) [])
              [((1 : ℤ), (0 : ℤ))]) ∧
    ChooseSpec ((0 : ℤ), (0 : ℤ)) [((1 : ℤ), (0 : ℤ))]
      (chooseNext ((0 : ℤ), (0 : ℤ)) ((1 : ℤ), (0 : ℤ)) []) ∧
    (distSq ((0 : ℤ), (0 : ℤ)) (chooseNext ((0 : ℤ), (0 : ℤ)) ((1 : ℤ), (0 : ℤ)) []) = 1 ∨
      ∀ q ∈ [((1 : ℤ), (0 : ℤ))],
        distSq ((0 : ℤ), (0 : ℤ)) (chooseNext ((0 : ℤ), (0 : ℤ)) ((1 : ℤ), (0 : ℤ)) [])
          ≤ distSq ((0 : ℤ), (0 : ℤ)) q) :=
  planner_step_rule ((0 : ℤ), (0 : ℤ)) ((1 : ℤ), (0 : ℤ)) []

/-- Claim C4: the jump analysis computes the index threshold as
`jump_threshold_physical / step_physical`, emits (in path order, as the
order-preserving filter of the consecutive pairs) exactly the pairs whose
Euclidean index distance strictly exceeds the index threshold, and each
emitted record's physical distance is its index distance times the step. -/
theorem jump_analysis_spec (path : List Pt) (tum : ℚ) :
    analyzeJumps path (jumpThreshIdx tum)
      = ((path.zip path.tail).filter
          (fun ab => jumpCond (distSq ab.1 ab.2) (jumpThreshIdx tum))).map
          (fun ab => jumpRecOf ab.1 ab.2) ∧
    jumpThreshIdx tum = tum / galvoStepQ ∧
    (∀ a b : Pt, jumpCond (distSq a b) (jumpThreshIdx tum) = true ↔
      ((jumpThreshIdx tum : ℝ) < Real.sqrt ((distSq a b : ℤ) : ℝ))) ∧
    (∀ j ∈ analyzeJumps path (jumpThreshIdx tum),
      Real.sqrt ((j.dUm2 : ℝ)) = Real.sqrt ((j.d2 : ℝ)) * (galvoStepQ : ℝ)) := by
  refine ⟨analyzeLoop_eq_filterMap _ _, rfl, fun a b => jumpCond_iff_sqrt a b _, ?_⟩
  intro j hj
  unfold analyzeJumps at hj
  rw [analyzeLoop_eq_filterMap] at hj
  obtain ⟨ab, _, rfl⟩ := List.mem_map.mp hj
  have hd : (0 : ℝ) ≤ ((distSq ab.1 ab.2 : ℤ) : ℝ) := by
    exact_mod_cast distSq_nonneg ab.1 ab.2
  show Real.sqrt (((distSq ab.1 ab.2 : ℚ) * galvoStepQ ^ 2 : ℚ) : ℝ)
      = Real.sqrt ((distSq ab.1 ab.2 : ℤ) : ℝ) * (galvoStepQ : ℝ)
  push_cast
  rw [Real.sqrt_mul hd]
  congr 1
  rw [Real.sqrt_sq (by norm_num [galvoStepQ])]

/-- Witness for C4 at a concrete path and threshold. -/
theorem jump_analysis_spec_witness :
    Real.sqrt (((jumpRecOf ((0 : ℤ), (0 : ℤ)) ((5 : ℤ), (5 : ℤ))).dUm2 : ℝ))
      = Real.sqrt (((jumpRecOf ((0 : ℤ), (0 : ℤ)) ((5 : ℤ), (5 : ℤ))).d2 : ℝ))
          * (galvoStepQ : ℝ) :=
  (jump_analysis_spec [((0 : ℤ), (0 : ℤ)), ((5 : ℤ), (5 : ℤ))] (2/5)).2.2.2
    (jumpRecOf ((0 : ℤ), (0 : ℤ)) ((5 : ℤ), (5 : ℤ)))
    (by
      have hc : jumpCond (distSq ((0 : ℤ), (0 : ℤ)) ((5 : ℤ), (5 : ℤ)))
          (jumpThreshIdx (2/5)) = true := by
        have h1 : distSq ((0 : ℤ), (0 : ℤ)) ((5 : ℤ), (5 : ℤ)) = 50 := by decide
        have h2 : jumpThreshIdx (2/5) = 2 := by norm_num [jumpThreshIdx, galvoStepQ]
        rw [h1, h2]
        unfold jumpCond
        simp only [Bool.or_eq_true, decide_eq_true_eq]
        norm_num
      have hz : ([((0 : ℤ), (0 : ℤ)), ((5 : ℤ), (5 : ℤ))].zip
          [((0 : ℤ), (0 : ℤ)), ((5 : ℤ), (5 : ℤ))].tail)
          = [(((0 : ℤ), (0 : ℤ)), ((5 : ℤ), (5 : ℤ)))] := rfl
      unfold analyzeJumps
      rw [hz]
      simp [analyzeLoop, hc]
      exact hc)

/-- Claim C5: an unparsable threshold entry (`none`, the `except ValueError`
branch) makes both the jump analysis and the scan simulation proceed with the
default threshold of 0.4 physical units (= 2/5); both are total functions, so
the operation always completes. -/
theorem threshold_fallback_default :
    parseThreshold none = 2/5 ∧
    (∀ path : List Pt, generateJumps none path = analyzeJumps path (jumpThreshIdx (2/5))) ∧
    (∀ path : List Pt, simulateScan none path = simulateScan (some (2/5)) path) :=
  ⟨rfl, fun _ => rfl, fun _ => rfl⟩

/-- Claim C6: for a fixed scan path and step size, raising the physical jump
threshold never increases the number of emitted jump records. -/
theorem jump_count_antitone (path : List Pt) (t1 t2 : ℚ) (h : t1 ≤ t2) :
    (analyzeJumps path (jumpThreshIdx t2)).length
      ≤ (analyzeJumps path (jumpThreshIdx t1)).length :=
  analyzeJumps_length_antitone path (jumpThreshIdx_mono h)

/-- Witness for C6 at a concrete path and threshold pair. -/
theorem jump_count_antitone_witness :
    (analyzeJumps [((0 : ℤ), (0 : ℤ)), ((3 : ℤ), (0 : ℤ))] (jumpThreshIdx 1)).length
      ≤ (analyzeJumps [((0 : ℤ), (0 : ℤ)), ((3 : ℤ), (0 : ℤ))] (jumpThreshIdx (2/5))).length :=
  jump_count_antitone [((0 : ℤ), (0 : ℤ)), ((3 : ℤ), (0 : ℤ))] (2/5) 1 (by norm_num)

/-- Claim C7: a region of fewer than 3 vertices (entered freehand, then
closed, then run through grid generation) yields an empty candidate set, an
empty scan path, an empty jump list, and a scan simulation that performs zero
writes; every stage is a total function, so nothing raises. -/
theorem degenerate_region_noop (vs : List Pt) (inPoly : Pt → Bool) (tin : Option ℚ)
    (h : vs.length < 3) :
    (generateGrid inPoly tin (closePolygon (vs.foldl addVertex initState))).2 = [] ∧
    (generateGrid inPoly tin (closePolygon (vs.foldl addVertex initState))).1.gridPoints = [] ∧
    (generateGrid inPoly tin (closePolygon (vs.foldl addVertex initState))).1.bigJumps = [] ∧
    simulateScan tin
      (generateGrid inPoly tin (closePolygon (vs.foldl addVertex initState))).1.gridPoints
      = [] := by
  obtain ⟨h1, h2, h3, h4⟩ := foldl_addVertex_fields vs initState
  have hini : initState.vertices.length = 0 := rfl
  have hlen : ¬ (2 < (vs.foldl addVertex initState).vertices.length) := by omega
  have hclose : closePolygon (vs.foldl addVertex initState) = vs.foldl addVertex initState := by
    unfold closePolygon
    rw [if_neg hlen]
  have hdrawn : (vs.foldl addVertex initState).polygonDrawn = false := h1
  have hgen : generateGrid inPoly tin (vs.foldl addVertex initState)
      = (vs.foldl addVertex initState, []) := by
    unfold generateGrid
    rw [hdrawn]
    rfl
  rw [hclose, hgen]
  exact ⟨rfl, h2, h3, by rw [h2]; rfl⟩

/-- Witness for C7 at a concrete two-vertex region. -/
theorem degenerate_region_noop_witness :
    (generateGrid alwaysIn none (closePolygon (twoVerts.foldl addVertex initState))).2 = [] ∧
    (generateGrid alwaysIn none
      (closePolygon (twoVerts.foldl addVertex initState))).1.gridPoints = [] ∧
    (generateGrid alwaysIn none
      (closePolygon (twoVerts.foldl addVertex initState))).1.bigJumps = [] ∧
    simulateScan none
      (generateGrid alwaysIn none
        (closePolygon (twoVerts.foldl addVertex initState))).1.gridPoints = [] :=
  degenerate_region_noop twoVerts alwaysIn none (by decide)

/-- Counterexample for C8 as stated: for the path `[(0,0),(1,0),(1,1)]` with
`jump_threshold_index = 1.2 < 1.41`, the write at `(1,1)` takes the short
delay, because its distance to the previous point `(1,0)` is 1 (the spec's
"diagonal jump of distance sqrt 2" is the non-consecutive pair `(0,0)` to
`(1,1)`), contradicting the claim that it incurs the long delay whenever
`jump_threshold_index < 1.41`. -/
theorem simulate_trace_order_counterexample :
    (6/5 : ℚ) < 141/100 ∧
    (simTrace (6/5) none [((0 : ℤ), (0 : ℤ)), ((1 : ℤ), (0 : ℤ)), ((1 : ℤ), (1 : ℤ))]).getLast?
      = some (some Delay.short, ((1 : ℤ), (1 : ℤ))) := by
  constructor
  · norm_num
  · have h1 : distSq ((1 : ℤ), (0 : ℤ)) ((1 : ℤ), (1 : ℤ)) = 1 := by decide
    have hcond : jumpCond (distSq ((1 : ℤ), (0 : ℤ)) ((1 : ℤ), (1 : ℤ))) (6/5) = false := by
      rw [h1]
      unfold jumpCond
      rw [Bool.or_eq_false_iff]
      constructor <;> rw [decide_eq_false_iff_not] <;> norm_num
    have hlast :
        (simTrace (6/5 : ℚ) none
            [((0 : ℤ), (0 : ℤ)), ((1 : ℤ), (0 : ℤ)), ((1 : ℤ), (1 : ℤ))]).getLast?
          = some (some (if jumpCond (distSq ((1 : ℤ), (0 : ℤ)) ((1 : ℤ), (1 : ℤ))) (6/5)
              then Delay.long else Delay.short), ((1 : ℤ), (1 : ℤ))) := rfl
    rw [hlast, hcond]
    rfl

/-- Claim C8, amended: the scan simulation performs exactly one accumulator
write per path point, strictly in path order, with no delay before the first
write and a delay interposed before every later write — long exactly when the
Euclidean index distance to the previous point strictly exceeds the index
threshold, otherwise short. In particular, for the path `[(0,0),(1,0),(1,1)]`
the write at `(1,1)` incurs the long delay when `jump_threshold_index < 1`
(its distance to the previous point `(1,0)` is exactly 1, not sqrt 2 as the
original claim assumed). -/
theorem simulate_trace_order (tIdx : ℚ) (p : Pt) (rest : List Pt) :
    (simTrace tIdx none (p :: rest)).map Prod.snd = p :: rest ∧
    (simTrace tIdx none (p :: rest)).head? = some (none, p) ∧
    (∀ (prev q : Pt) (l : List Pt),
      simTrace tIdx (some prev) (q :: l)
        = (some (if jumpCond (distSq prev q) tIdx then Delay.long else Delay.short), q) ::
            simTrace tIdx (some q) l) ∧
    (∀ a b : Pt, jumpCond (distSq a b) tIdx = true ↔
      ((tIdx : ℝ) < Real.sqrt ((distSq a b : ℤ) : ℝ))) ∧
    (tIdx < 1 →
      (simTrace tIdx none [((0 : ℤ), (0 : ℤ)), ((1 : ℤ), (0 : ℤ)), ((1 : ℤ), (1 : ℤ))]).getLast?
        = some (some Delay.long, ((1 : ℤ), (1 : ℤ)))) := by
  refine ⟨simTrace_map_snd tIdx (p :: rest) none, rfl, fun _ _ _ => rfl,
    fun a b => jumpCond_iff_sqrt a b tIdx, ?_⟩
  intro ht
  have h1 : distSq ((1 : ℤ), (0 : ℤ)) ((1 : ℤ), (1 : ℤ)) = 1 := by decide
  have hcond : jumpCond (distSq ((1 : ℤ), (0 : ℤ)) ((1 : ℤ), (1 : ℤ))) tIdx = true := by
    rw [h1]
    unfold jumpCond
    simp only [Bool.or_eq_true, decide_eq_true_eq]
    rcases lt_or_le tIdx 0 with h0 | h0
    · exact Or.inl h0
    · refine Or.inr ?_
      have hq : tIdx ^ 2 < 1 := by nlinarith
      exact_mod_cast hq
  have hlast :
      (simTrace tIdx none
          [((0 : ℤ), (0 : ℤ)), ((1 : ℤ), (0 : ℤ)), ((1 : ℤ), (1 : ℤ))]).getLast?
        = some (some (if jumpCond (distSq ((1 : ℤ), (0 : ℤ)) ((1 : ℤ), (1 : ℤ))) tIdx
            then Delay.long else Delay.short), ((1 : ℤ), (1 : ℤ))) := rfl
  rw [hlast, hcond]
  rfl

/-- Witness for the amended C8 at a concrete threshold, discharging the
example hypothesis. -/
theorem simulate_trace_order_witness :
    (simTrace ((1 : ℚ)/2) none
        [((0 : ℤ), (0 : ℤ)), ((1 : ℤ), (0 : ℤ)), ((1 : ℤ), (1 : ℤ))]).getLast?
      = some (some Delay.long, ((1 : ℤ), (1 : ℤ))) :=
  (simulate_trace_order (1/2) ((0 : ℤ), (0 : ℤ)) []).2.2.2.2 (by norm_num)

/-- Claim C9: for a fixed vertex list, containment test and threshold input,
the generate pipeline is deterministic; the candidates are enumerated
row-major (outer rows ascending, inner columns ascending), the path starts at
the first candidate, the axis-neighbor tie-break takes the first match in
pool order, and the Euclidean fallback takes the first minimum in pool
order. -/
theorem pipeline_deterministic (inPoly : Pt → Bool) (vs1 vs2 : List Pt) (t1 t2 : Option ℚ)
    (hv : vs1 = vs2) (ht : t1 = t2) :
    fullPipeline inPoly vs1 t1 = fullPipeline inPoly vs2 t2 ∧
    candidatesOf inPoly vs1 = rowMajorCandidates inPoly vs1 ∧
    (∀ lo hi : ℤ, (intRange lo hi).Pairwise (· < ·)) ∧
    (∀ (c : Pt) (rest : List Pt), generateGridPath (c :: rest) = c :: planLoop c rest) ∧
    (∀ (cur : Pt) (pool : List Pt),
      (axisNeighbors cur pool).head? = pool.find? (fun q => isAxisNbr cur q)) ∧
    (∀ (cur p : Pt) (rest : List Pt), ChooseSpec cur (p :: rest) (chooseNext cur p rest)) := by
  subst hv
  subst ht
  exact ⟨rfl, candidatesOf_eq_rowMajor _ _, pairwise_lt_intRange, fun _ _ => rfl,
    axisNeighbors_head?, chooseNext_spec⟩

/-- Witness for C9 at concrete identical inputs. -/
theorem pipeline_deterministic_witness :
    fullPipeline alwaysIn twoVerts none = fullPipeline alwaysIn twoVerts none :=
  (pipeline_deterministic alwaysIn twoVerts twoVerts none none rfl rfl).1

/-- Claim C10: a single simulated-scan write at `(ix, iy)` sets exactly the
accumulator cell at row `iy`, column `ix` of the `roi_size` by `roi_size`
grid, and leaves every other cell unchanged. -/
theorem heatmap_write_frame (g : Heatmap) (ix iy : ℕ) (v : ℤ)
    (hg : g.length = roiSizeN) (hrow : ∀ row ∈ g, row.length = roiSizeN)
    (hx : ix < roiSizeN) (hy : iy < roiSizeN) :
    readCell (updateHeatmap g ix iy v) iy ix = some v ∧
    ∀ r c : ℕ, ¬(r = iy ∧ c = ix) →
      readCell (updateHeatmap g ix iy v) r c = readCell g r c := by
  have hylen : iy < g.length := by rw [hg]; exact hy
  have hmemrow : g.getD iy [] ∈ g := by
    rw [List.getD_eq_getElem?_getD, List.getElem?_eq_getElem hylen, Option.getD_some]
    exact List.getElem_mem hylen
  have hrowlen : ix < (g.getD iy []).length := by
    rw [hrow _ hmemrow]
    exact hx
  have hrowlen2 : ix < (g[iy]?.getD []).length := by
    rw [← List.getD_eq_getElem?_getD]
    exact hrowlen
  constructor
  · unfold readCell updateHeatmap
    simp only [List.getD_eq_getElem?_getD]
    rw [List.getElem?_set_self hylen, Option.getD_some, List.getElem?_set_self hrowlen2,
      Option.getD_some]
  · intro r c hrc
    unfold readCell updateHeatmap
    by_cases hr : r = iy
    · subst hr
      have hc : ix ≠ c := by
        intro hcc
        exact hrc ⟨rfl, hcc.symm⟩
      simp only [List.getD_eq_getElem?_getD]
      rw [List.getElem?_set_self hylen, Option.getD_some, List.getElem?_set_ne hc]
    · have hne : iy ≠ r := fun hh => hr hh.symm
      simp only [List.getD_eq_getElem?_getD]
      rw [List.getElem?_set_ne hne]

/-- Witness for C10 at a concrete write into the fresh accumulator. -/
theorem heatmap_write_frame_witness :
    readCell (updateHeatmap initHeatmap 3 5 7) 5 3 = some 7 ∧
    ∀ r c : ℕ, ¬(r = 5 ∧ c = 3) →
      readCell (updateHeatmap initHeatmap 3 5 7) r c = readCell initHeatmap r c :=
  heatmap_write_frame initHeatmap 3 5 7
    (by simp [initHeatmap])
    (by
      intro row hrowmem
      rw [List.eq_of_mem_replicate hrowmem]
      simp)
    (by norm_num [roiSizeN])
    (by norm_num [roiSizeN])

end TwoPhoton
